import Mathlib

/-!
Verification of the Floating-Point Control Register (FPCR) model of the
dynarmic project, `src/common/fp/fpcr.h`.

The FPCR wraps a 32-bit unsigned integer `value`, applies the reserved-bit
mask `0x07FF9F00` on every construction and assignment from a raw value, and
exposes named accessors per architectural field.  Machine integers are
embedded as `Nat`; the 32-bit width is explicit in the definitions where it
matters.  The asserting setters (`RMode`, `Stride`, `Len`) are embedded as
`Option`-returning functions: `none` models the `ASSERT_MSG` abort.
-/

/-- Modelled from the spec: the 4-variant rounding-mode enumeration of
`common/fp/rounding_mode.h` (not under `src/`): round-to-nearest, round-up,
round-down, round-toward-zero, whose numeric encoding is exactly its 2-bit
field value 0..3. -/
inductive RoundingMode where
  | ToNearest_TieEven
  | TowardsPlusInfinity
  | TowardsMinusInfinity
  | TowardsZero
deriving DecidableEq

/-- Numeric encoding of a rounding mode (`static_cast<u32>(rounding_mode)`). -/
def RoundingMode.toEncoding : RoundingMode → Nat
  | .ToNearest_TieEven => 0
  | .TowardsPlusInfinity => 1
  | .TowardsMinusInfinity => 2
  | .TowardsZero => 3

/-- Interpretation of a 2-bit field value as a rounding mode
(`static_cast<FP::RoundingMode>(...)`); the FPCR getter only ever applies it
to values below 4. -/
def RoundingMode.ofEncoding : Nat → RoundingMode
  | 0 => .ToNearest_TieEven
  | 1 => .TowardsPlusInfinity
  | 2 => .TowardsMinusInfinity
  | _ => .TowardsZero

/-- All 32 bits set: the truncation mask of the `u32` type. -/
def mask32 : Nat := 2 ^ 32 - 1

/-- Modelled from the spec: `Common::Bits<lo, hi>` of `common/bit_util.h`
(not under `src/`): extracts the unsigned integer held in bits `[lo, hi]`
of `value`. -/
def Common.Bits (lo hi value : Nat) : Nat :=
  (value >>> lo) &&& (2 ^ (hi - lo + 1) - 1)

/-- Modelled from the spec: `Common::Bit<n>` of `common/bit_util.h`
(not under `src/`): extracts bit `n` of `value` as a boolean. -/
def Common.Bit (n value : Nat) : Bool :=
  Nat.testBit value n

/-- Modelled from the spec: `Common::ModifyBits<lo, hi>` of
`common/bit_util.h` (not under `src/`): returns a copy of `value` (a `u32`)
with bits `[lo, hi]` replaced by `new_value`, all other bits untouched. -/
def Common.ModifyBits (lo hi value new_value : Nat) : Nat :=
  (value &&& (mask32 ^^^ ((2 ^ (hi - lo + 1) - 1) <<< lo))) |||
    ((new_value &&& (2 ^ (hi - lo + 1) - 1)) <<< lo)

/-- Modelled from the spec: `Common::ModifyBit<n>` of `common/bit_util.h`
(not under `src/`): returns a copy of `value` with bit `n` set to `b`, all
other bits untouched. -/
def Common.ModifyBit (n value : Nat) (b : Bool) : Nat :=
  Common.ModifyBits n n value (if b then 1 else 0)

/-- Representation of the Floating-Point Control Register (`class FPCR` of
`src/common/fp/fpcr.h`).  The sole state is the 32-bit `value`. -/
structure FPCR where
  value : Nat
deriving DecidableEq

/-- `FPCR::mask`: bits 0-7, 13-14, and 27-31 are reserved. -/
def FPCR.mask : Nat := 0x07FF9F00

/-- `FPCR()`: default construction, `value = 0`. -/
def FPCR.default : FPCR := ⟨0⟩

/-- `explicit FPCR(u32 data)`: construction from a raw value,
`value = data & mask`. -/
def FPCR.ofRaw (data : Nat) : FPCR := ⟨data &&& FPCR.mask⟩

/-- `FPCR& operator=(u32 data)`: assignment from a raw value,
`value = data & mask`. -/
def FPCR.assign (_r : FPCR) (data : Nat) : FPCR := ⟨data &&& FPCR.mask⟩

/-- `FPCR::Value()`: the underlying raw value. -/
def FPCR.Value (r : FPCR) : Nat := r.value

/-- `bool AHP() const`: alternate half-precision control flag, bit 26. -/
def FPCR.AHP (r : FPCR) : Bool := Common.Bit 26 r.value

/-- `void AHP(bool)`: set bit 26. -/
def FPCR.setAHP (r : FPCR) (ahp : Bool) : FPCR := ⟨Common.ModifyBit 26 r.value ahp⟩

/-- `bool DN() const`: default NaN mode control bit, bit 25. -/
def FPCR.DN (r : FPCR) : Bool := Common.Bit 25 r.value

/-- `void DN(bool)`: set bit 25. -/
def FPCR.setDN (r : FPCR) (dn : Bool) : FPCR := ⟨Common.ModifyBit 25 r.value dn⟩

/-- `bool FZ() const`: flush-to-zero mode control bit, bit 24. -/
def FPCR.FZ (r : FPCR) : Bool := Common.Bit 24 r.value

/-- `void FZ(bool)`: set bit 24. -/
def FPCR.setFZ (r : FPCR) (fz : Bool) : FPCR := ⟨Common.ModifyBit 24 r.value fz⟩

/-- `FP::RoundingMode RMode() const`: rounding mode control field,
bits 22-23. -/
def FPCR.RMode (r : FPCR) : RoundingMode :=
  RoundingMode.ofEncoding (Common.Bits 22 23 r.value)

/-- `void RMode(FP::RoundingMode)`: set bits 22-23.  The argument is embedded
by its numeric encoding (a C++ enum holds its underlying integer); the
`ASSERT_MSG(encoding <= 0b11)` abort is the `none` branch. -/
def FPCR.setRMode (r : FPCR) (rounding_mode : Nat) : Option FPCR :=
  if rounding_mode ≤ 3 then
    some ⟨Common.ModifyBits 22 23 r.value rounding_mode⟩
  else
    none

/-- `boost::optional<size_t> Stride() const`: vector stride, bits 20-21.
Encoding `0b00` means 1, `0b11` means 2, the other two encodings have no
defined value (`boost::none`). -/
def FPCR.Stride (r : FPCR) : Option Nat :=
  match Common.Bits 20 21 r.value with
  | 0 => some 1
  | 3 => some 2
  | _ => none

/-- `void Stride(size_t)`: set bits 20-21 to `0b00` for stride 1 and `0b11`
for stride 2; the `ASSERT_MSG(stride >= 1 && stride <= 2)` abort is the
`none` branch. -/
def FPCR.setStride (r : FPCR) (stride : Nat) : Option FPCR :=
  if 1 ≤ stride ∧ stride ≤ 2 then
    some ⟨Common.ModifyBits 20 21 r.value (if stride = 1 then 0 else 3)⟩
  else
    none

/-- `bool FZ16() const`: flush-to-zero (half-precision) control bit,
bit 19. -/
def FPCR.FZ16 (r : FPCR) : Bool := Common.Bit 19 r.value

/-- `void FZ16(bool)`: set bit 19. -/
def FPCR.setFZ16 (r : FPCR) (fz16 : Bool) : FPCR := ⟨Common.ModifyBit 19 r.value fz16⟩

/-- `size_t Len() const`: vector length, bits 16-18 plus one. -/
def FPCR.Len (r : FPCR) : Nat := Common.Bits 16 18 r.value + 1

/-- `void Len(size_t)`: store `len - 1` into bits 16-18; the
`ASSERT_MSG(len >= 1 && len <= 8)` abort is the `none` branch. -/
def FPCR.setLen (r : FPCR) (len : Nat) : Option FPCR :=
  if 1 ≤ len ∧ len ≤ 8 then
    some ⟨Common.ModifyBits 16 18 r.value (len - 1)⟩
  else
    none

/-- `bool IDE() const`: input denormal trap enable flag, bit 15. -/
def FPCR.IDE (r : FPCR) : Bool := Common.Bit 15 r.value

/-- `void IDE(bool)`: set bit 15. -/
def FPCR.setIDE (r : FPCR) (ide : Bool) : FPCR := ⟨Common.ModifyBit 15 r.value ide⟩

/-- `bool IXE() const`: inexact trap enable flag, bit 12. -/
def FPCR.IXE (r : FPCR) : Bool := Common.Bit 12 r.value

/-- `void IXE(bool)`: set bit 12. -/
def FPCR.setIXE (r : FPCR) (ixe : Bool) : FPCR := ⟨Common.ModifyBit 12 r.value ixe⟩

/-- `bool UFE() const`: underflow trap enable flag, bit 11. -/
def FPCR.UFE (r : FPCR) : Bool := Common.Bit 11 r.value

/-- `void UFE(bool)`: set bit 11. -/
def FPCR.setUFE (r : FPCR) (ufe : Bool) : FPCR := ⟨Common.ModifyBit 11 r.value ufe⟩

/-- `bool OFE() const`: overflow trap enable flag, bit 10. -/
def FPCR.OFE (r : FPCR) : Bool := Common.Bit 10 r.value

/-- `void OFE(bool)`: set bit 10. -/
def FPCR.setOFE (r : FPCR) (ofe : Bool) : FPCR := ⟨Common.ModifyBit 10 r.value ofe⟩

/-- `bool DZE() const`: division-by-zero trap enable flag, bit 9. -/
def FPCR.DZE (r : FPCR) : Bool := Common.Bit 9 r.value

/-- `void DZE(bool)`: set bit 9. -/
def FPCR.setDZE (r : FPCR) (dze : Bool) : FPCR := ⟨Common.ModifyBit 9 r.value dze⟩

/-- `bool IOE() const`: invalid-operation trap enable flag, bit 8. -/
def FPCR.IOE (r : FPCR) : Bool := Common.Bit 8 r.value

/-- `void IOE(bool)`: set bit 8. -/
def FPCR.setIOE (r : FPCR) (ioe : Bool) : FPCR := ⟨Common.ModifyBit 8 r.value ioe⟩

/-- `operator==(FPCR lhs, FPCR rhs)`: compares the raw values. -/
def FPCR.equal (lhs rhs : FPCR) : Bool := lhs.Value == rhs.Value

/-- `operator!=(FPCR lhs, FPCR rhs)`. -/
def FPCR.notEqual (lhs rhs : FPCR) : Bool := !(FPCR.equal lhs rhs)

/-- The FPCR states reachable by any sequence of: default construction,
construction from any raw 32-bit value, assignment from any raw value, and
field setters called with in-domain arguments.  For the asserting setters
the `some` case is exactly the in-domain case. -/
inductive FPCR.Reachable : FPCR → Prop where
  | default : FPCR.Reachable FPCR.default
  | ofRaw (data : Nat) : FPCR.Reachable (FPCR.ofRaw data)
  | assign (r : FPCR) (data : Nat) : FPCR.Reachable r → FPCR.Reachable (r.assign data)
  | setAHP (r : FPCR) (b : Bool) : FPCR.Reachable r → FPCR.Reachable (r.setAHP b)
  | setDN (r : FPCR) (b : Bool) : FPCR.Reachable r → FPCR.Reachable (r.setDN b)
  | setFZ (r : FPCR) (b : Bool) : FPCR.Reachable r → FPCR.Reachable (r.setFZ b)
  | setFZ16 (r : FPCR) (b : Bool) : FPCR.Reachable r → FPCR.Reachable (r.setFZ16 b)
  | setIDE (r : FPCR) (b : Bool) : FPCR.Reachable r → FPCR.Reachable (r.setIDE b)
  | setIXE (r : FPCR) (b : Bool) : FPCR.Reachable r → FPCR.Reachable (r.setIXE b)
  | setUFE (r : FPCR) (b : Bool) : FPCR.Reachable r → FPCR.Reachable (r.setUFE b)
  | setOFE (r : FPCR) (b : Bool) : FPCR.Reachable r → FPCR.Reachable (r.setOFE b)
  | setDZE (r : FPCR) (b : Bool) : FPCR.Reachable r → FPCR.Reachable (r.setDZE b)
  | setIOE (r : FPCR) (b : Bool) : FPCR.Reachable r → FPCR.Reachable (r.setIOE b)
  | setRMode (r : FPCR) (n : Nat) (r' : FPCR) :
      FPCR.Reachable r → r.setRMode n = some r' → FPCR.Reachable r'
  | setStride (r : FPCR) (s : Nat) (r' : FPCR) :
      FPCR.Reachable r → r.setStride s = some r' → FPCR.Reachable r'
  | setLen (r : FPCR) (n : Nat) (r' : FPCR) :
      FPCR.Reachable r → r.setLen n = some r' → FPCR.Reachable r'

/-- `v'` agrees with `v` on every bit outside `[lo, hi]`. -/
def FramedAt (lo hi v v' : Nat) : Prop :=
  ∀ i, i < lo ∨ hi < i → v'.testBit i = v.testBit i

/-- Bit `i` of `mask32` is set exactly when `i < 32`. -/
theorem mask32_testBit (i : Nat) : mask32.testBit i = decide (i < 32) := by
  rw [show mask32 = 2 ^ 32 - 1 from rfl, Nat.testBit_two_pow_sub_one]

/-- Inside the written range, `ModifyBits` reads back the written value. -/
theorem ModifyBits_testBit_in (lo hi v x i : Nat) (h1 : lo ≤ i) (h2 : i ≤ hi)
    (h3 : hi < 32) :
    (Common.ModifyBits lo hi v x).testBit i = x.testBit (i - lo) := by
  have hi32 : i < 32 := lt_of_le_of_lt h2 h3
  have hw : i - lo < hi - lo + 1 := by omega
  simp [Common.ModifyBits, mask32_testBit, Nat.testBit_or, Nat.testBit_and, Nat.testBit_xor,
    Nat.testBit_shiftLeft, Nat.testBit_two_pow_sub_one, h1, hw, hi32]

/-- Below bit 32 and outside the written range, `ModifyBits` keeps the old
bit. -/
theorem ModifyBits_testBit_out (lo hi v x i : Nat) (hlohi : lo ≤ hi)
    (h32 : i < 32) (hout : i < lo ∨ hi < i) :
    (Common.ModifyBits lo hi v x).testBit i = v.testBit i := by
  simp only [Common.ModifyBits, mask32_testBit, Nat.testBit_or, Nat.testBit_and,
    Nat.testBit_xor, Nat.testBit_shiftLeft, Nat.testBit_two_pow_sub_one]
  rcases hout with hlt | hgt
  · have h1 : decide (i ≥ lo) = false := by simp; omega
    have h2 : decide (i < 32) = true := by simp [h32]
    simp [h1, h2]
  · have h1 : decide (i - lo < hi - lo + 1) = false := by simp; omega
    have h2 : decide (i < 32) = true := by simp [h32]
    simp [h1, h2]

/-- At bit 32 and above, `ModifyBits` produces zero bits (the `u32`
truncation). -/
theorem ModifyBits_testBit_hi (lo hi v x i : Nat) (hlohi : lo ≤ hi) (h3 : hi < 32)
    (h32 : 32 ≤ i) :
    (Common.ModifyBits lo hi v x).testBit i = false := by
  have h1 : decide (i - lo < hi - lo + 1) = false := by simp; omega
  have h2 : decide (i < 32) = false := by simp; omega
  simp [Common.ModifyBits, mask32_testBit, Nat.testBit_or, Nat.testBit_and, Nat.testBit_xor,
    Nat.testBit_shiftLeft, Nat.testBit_two_pow_sub_one, h1, h2]

/-- A masked value is bounded by the mask. -/
theorem le_of_land_self {v m : Nat} (hv : v &&& m = v) : v ≤ m := by
  calc v = v &&& m := hv.symm
    _ ≤ m := Nat.and_le_right

/-- `ModifyBits` on a field lying inside `FPCR.mask` preserves the
reserved-bit invariant. -/
theorem ModifyBits_invariant (lo hi v x : Nat) (hlohi : lo ≤ hi) (h3 : hi < 32)
    (hmask : ∀ i, i < 32 → lo ≤ i → i ≤ hi → FPCR.mask.testBit i = true)
    (hv : v &&& FPCR.mask = v) :
    Common.ModifyBits lo hi v x &&& FPCR.mask = Common.ModifyBits lo hi v x := by
  apply Nat.eq_of_testBit_eq
  intro i
  rw [Nat.testBit_and]
  by_cases h32 : i < 32
  · by_cases hin : lo ≤ i ∧ i ≤ hi
    · rw [hmask i h32 hin.1 hin.2, Bool.and_true]
    · rw [ModifyBits_testBit_out lo hi v x i hlohi h32 (by omega)]
      cases hmb : FPCR.mask.testBit i with
      | true => rw [Bool.and_true]
      | false =>
        have hv0 : v.testBit i = false := by
          conv_lhs => rw [← hv]
          rw [Nat.testBit_and, hmb, Bool.and_false]
        rw [hv0, Bool.false_and]
  · rw [ModifyBits_testBit_hi lo hi v x i hlohi h3 (by omega), Bool.false_and]

/-- Idempotence of masking. -/
theorem land_land_self (x m : Nat) : (x &&& m) &&& m = x &&& m := by
  apply Nat.eq_of_testBit_eq
  intro i
  simp [Nat.testBit_and, Bool.and_assoc]

/-- Every reachable FPCR state is fixed by the reserved-bit mask. -/
theorem FPCR.Reachable.masked {r : FPCR} (h : r.Reachable) :
    r.value &&& FPCR.mask = r.value := by
  induction h with
  | default => decide
  | ofRaw data => exact land_land_self data FPCR.mask
  | assign r data _ _ => exact land_land_self data FPCR.mask
  | setAHP r b _ ih =>
    exact ModifyBits_invariant 26 26 r.value _ (le_refl _) (by omega) (by decide) ih
  | setDN r b _ ih =>
    exact ModifyBits_invariant 25 25 r.value _ (le_refl _) (by omega) (by decide) ih
  | setFZ r b _ ih =>
    exact ModifyBits_invariant 24 24 r.value _ (le_refl _) (by omega) (by decide) ih
  | setFZ16 r b _ ih =>
    exact ModifyBits_invariant 19 19 r.value _ (le_refl _) (by omega) (by decide) ih
  | setIDE r b _ ih =>
    exact ModifyBits_invariant 15 15 r.value _ (le_refl _) (by omega) (by decide) ih
  | setIXE r b _ ih =>
    exact ModifyBits_invariant 12 12 r.value _ (le_refl _) (by omega) (by decide) ih
  | setUFE r b _ ih =>
    exact ModifyBits_invariant 11 11 r.value _ (le_refl _) (by omega) (by decide) ih
  | setOFE r b _ ih =>
    exact ModifyBits_invariant 10 10 r.value _ (le_refl _) (by omega) (by decide) ih
  | setDZE r b _ ih =>
    exact ModifyBits_invariant 9 9 r.value _ (le_refl _) (by omega) (by decide) ih
  | setIOE r b _ ih =>
    exact ModifyBits_invariant 8 8 r.value _ (le_refl _) (by omega) (by decide) ih
  | setRMode r n r' _ hs ih =>
    unfold FPCR.setRMode at hs
    split at hs
    · cases hs
      exact ModifyBits_invariant 22 23 r.value _ (by omega) (by omega) (by decide) ih
    · exact absurd hs (by simp)
  | setStride r s r' _ hs ih =>
    unfold FPCR.setStride at hs
    split at hs
    · cases hs
      exact ModifyBits_invariant 20 21 r.value _ (by omega) (by omega) (by decide) ih
    · exact absurd hs (by simp)
  | setLen r n r' _ hs ih =>
    unfold FPCR.setLen at hs
    split at hs
    · cases hs
      exact ModifyBits_invariant 16 18 r.value _ (by omega) (by omega) (by decide) ih
    · exact absurd hs (by simp)

/-- Every reachable FPCR state fits in 32 bits. -/
theorem FPCR.Reachable.lt_two_pow_32 {r : FPCR} (h : r.Reachable) :
    r.value < 2 ^ 32 :=
  lt_of_le_of_lt (le_of_land_self h.masked) (by norm_num [FPCR.mask])

/-- Bit `j` of an extracted field is bit `lo + j` of the source, when in
range. -/
theorem Bits_testBit (lo hi v j : Nat) :
    (Common.Bits lo hi v).testBit j = (v.testBit (lo + j) && decide (j < hi - lo + 1)) := by
  simp [Common.Bits, Nat.testBit_and, Nat.testBit_shiftRight, Nat.testBit_two_pow_sub_one,
    Bool.and_comm]

/-- Reading back the field just written by `ModifyBits` yields the written
value, provided it fits the field width. -/
theorem Bits_ModifyBits_self (lo hi v x : Nat) (hlohi : lo ≤ hi) (h3 : hi < 32)
    (hx : x < 2 ^ (hi - lo + 1)) :
    Common.Bits lo hi (Common.ModifyBits lo hi v x) = x := by
  apply Nat.eq_of_testBit_eq
  intro j
  rw [Bits_testBit]
  by_cases hj : j < hi - lo + 1
  · rw [ModifyBits_testBit_in lo hi v x (lo + j) (by omega) (by omega) h3]
    simp [hj, Nat.add_sub_cancel_left]
  · have : x.testBit j = false :=
      Nat.testBit_eq_false_of_lt (lt_of_lt_of_le hx (Nat.pow_le_pow_right (by norm_num) (by omega)))
    simp [hj, this]

/-- Reading back the bit just written by `ModifyBit` yields the written
boolean. -/
theorem Bit_ModifyBit_self (n v : Nat) (b : Bool) (hn : n < 32) :
    Common.Bit n (Common.ModifyBit n v b) = b := by
  unfold Common.Bit Common.ModifyBit
  rw [ModifyBits_testBit_in n n v _ n (le_refl n) (le_refl n) hn, Nat.sub_self]
  cases b <;> decide

/-- `ModifyBits` touches no bit outside its field, for 32-bit inputs. -/
theorem ModifyBits_FramedAt (lo hi v x : Nat) (hlohi : lo ≤ hi) (h3 : hi < 32)
    (hv : v < 2 ^ 32) :
    FramedAt lo hi v (Common.ModifyBits lo hi v x) := by
  intro i hout
  by_cases h32 : i < 32
  · exact ModifyBits_testBit_out lo hi v x i hlohi h32 hout
  · rw [ModifyBits_testBit_hi lo hi v x i hlohi h3 (by omega), eq_comm]
    exact Nat.testBit_eq_false_of_lt
      (lt_of_lt_of_le hv (Nat.pow_le_pow_right (by norm_num) (by omega)))

/-- A disjoint field reads the same out of two values framed at `[lo, hi]`. -/
theorem Bits_congr_of_FramedAt (lo hi lo' hi' v v' : Nat) (hlo' : lo' ≤ hi')
    (hf : FramedAt lo hi v v') (hd : hi' < lo ∨ hi < lo') :
    Common.Bits lo' hi' v' = Common.Bits lo' hi' v := by
  apply Nat.eq_of_testBit_eq
  intro j
  rw [Bits_testBit, Bits_testBit]
  by_cases hj : j < hi' - lo' + 1
  · rw [hf (lo' + j) (by omega)]
  · simp [hj]

/-- A bit outside `[lo, hi]` reads the same out of two values framed at
`[lo, hi]`. -/
theorem Bit_congr_of_FramedAt (lo hi n v v' : Nat)
    (hf : FramedAt lo hi v v') (hd : n < lo ∨ hi < n) :
    Common.Bit n v' = Common.Bit n v :=
  hf n hd

/-- Masking with a mask that covers `[lo, hi]` does not change the extracted
field. -/
theorem Bits_land_mask (lo hi x m : Nat) (hlohi : lo ≤ hi) (h3 : hi < 32)
    (hm : ∀ i, i < 32 → lo ≤ i → i ≤ hi → m.testBit i = true) :
    Common.Bits lo hi (x &&& m) = Common.Bits lo hi x := by
  apply Nat.eq_of_testBit_eq
  intro j
  rw [Bits_testBit, Bits_testBit, Nat.testBit_and]
  by_cases hj : j < hi - lo + 1
  · rw [hm (lo + j) (by omega) (by omega) (by omega), Bool.and_true]
  · simp [hj]

/-- Encoding then decoding a legal rounding-mode encoding is the identity. -/
theorem toEncoding_ofEncoding (v : Nat) (hv : v ≤ 3) :
    (RoundingMode.ofEncoding v).toEncoding = v := by
  interval_cases v <;> rfl

/-- C1: for every reachable state of the FPCR (reached by any sequence of
construction from any 32-bit integer, assignment from any 32-bit integer,
and field setters called with in-domain arguments), the raw value satisfies
`value & ~0x07FF9F00 == 0`; that is, bits 0-7, 13-14, and 27-31 of the raw
value are always 0. -/
theorem C1_reserved_bit_invariant (r : FPCR) (h : r.Reachable) :
    r.value &&& 0xF80060FF = 0 ∧
    ∀ i, FPCR.mask.testBit i = false → r.value.testBit i = false := by
  have hm := h.masked
  have hbit : ∀ i, FPCR.mask.testBit i = false → r.value.testBit i = false := by
    intro i hmi
    conv_lhs => rw [← hm]
    rw [Nat.testBit_and, hmi, Bool.and_false]
  refine ⟨?_, hbit⟩
  apply Nat.eq_of_testBit_eq
  intro i
  rw [Nat.testBit_and]
  cases hC : Nat.testBit 0xF80060FF i with
  | false => simp
  | true =>
    have h32 : i < 32 := by
      by_contra hge
      rw [Nat.testBit_eq_false_of_lt (lt_of_lt_of_le
        (show (0xF80060FF : Nat) < 2 ^ 32 by norm_num)
        (Nat.pow_le_pow_right (by norm_num) (by omega)))] at hC
      exact Bool.noConfusion hC
    have hall : ∀ j, j < 32 → Nat.testBit 0xF80060FF j = true →
        FPCR.mask.testBit j = false := by decide
    rw [hbit i (hall i h32 hC)]
    simp

/-- Witness for C1 at a concrete reachable state. -/
theorem C1_reserved_bit_invariant_witness :
    (FPCR.ofRaw 0xFFFFFFFF).value &&& 0xF80060FF = 0 :=
  (C1_reserved_bit_invariant (FPCR.ofRaw 0xFFFFFFFF)
    (FPCR.Reachable.ofRaw 0xFFFFFFFF)).1

/-- C2: for every 32-bit input `x`, constructing from `x` (or assigning `x`)
and reading `Value()` yields exactly `x & 0x07FF9F00`; applying the mask
twice equals applying it once, so constructing a register from the `Value()`
of another register yields an equal register. -/
theorem C2_mask_idempotent (x : Nat) (r : FPCR) :
    (FPCR.ofRaw x).Value = x &&& 0x07FF9F00 ∧
    (r.assign x).Value = x &&& 0x07FF9F00 ∧
    (x &&& 0x07FF9F00) &&& 0x07FF9F00 = x &&& 0x07FF9F00 ∧
    FPCR.ofRaw ((FPCR.ofRaw x).Value) = FPCR.ofRaw x :=
  ⟨rfl, rfl, land_land_self x FPCR.mask,
    congrArg FPCR.mk (land_land_self x FPCR.mask)⟩

/-- Witness for C2 at a concrete input. -/
theorem C2_mask_idempotent_witness :
    (FPCR.ofRaw 0x12345678).Value = 0x12345678 &&& 0x07FF9F00 :=
  (C2_mask_idempotent 0x12345678 FPCR.default).1

/-- C9: constructing from `0xFFFFFFFF` yields raw value `0x07FF9F00` with
every defined field at its maximum legal value (all boolean fields true,
RMode encoding 3, Stride 2, Len 8); a default-constructed register has raw
value 0, RMode encoding 0 (round-to-nearest), all boolean fields false,
Stride 1, and Len 1. -/
theorem C9_concrete_scenarios :
    (FPCR.ofRaw 0xFFFFFFFF).Value = 0x07FF9F00 ∧
    (FPCR.ofRaw 0xFFFFFFFF).AHP = true ∧
    (FPCR.ofRaw 0xFFFFFFFF).DN = true ∧
    (FPCR.ofRaw 0xFFFFFFFF).FZ = true ∧
    (FPCR.ofRaw 0xFFFFFFFF).FZ16 = true ∧
    (FPCR.ofRaw 0xFFFFFFFF).IDE = true ∧
    (FPCR.ofRaw 0xFFFFFFFF).IXE = true ∧
    (FPCR.ofRaw 0xFFFFFFFF).UFE = true ∧
    (FPCR.ofRaw 0xFFFFFFFF).OFE = true ∧
    (FPCR.ofRaw 0xFFFFFFFF).DZE = true ∧
    (FPCR.ofRaw 0xFFFFFFFF).IOE = true ∧
    (FPCR.ofRaw 0xFFFFFFFF).RMode = RoundingMode.TowardsZero ∧
    (FPCR.ofRaw 0xFFFFFFFF).RMode.toEncoding = 3 ∧
    (FPCR.ofRaw 0xFFFFFFFF).Stride = some 2 ∧
    (FPCR.ofRaw 0xFFFFFFFF).Len = 8 ∧
    FPCR.default.Value = 0 ∧
    FPCR.default.AHP = false ∧
    FPCR.default.DN = false ∧
    FPCR.default.FZ = false ∧
    FPCR.default.FZ16 = false ∧
    FPCR.default.IDE = false ∧
    FPCR.default.IXE = false ∧
    FPCR.default.UFE = false ∧
    FPCR.default.OFE = false ∧
    FPCR.default.DZE = false ∧
    FPCR.default.IOE = false ∧
    FPCR.default.RMode = RoundingMode.ToNearest_TieEven ∧
    FPCR.default.RMode.toEncoding = 0 ∧
    FPCR.default.Stride = some 1 ∧
    FPCR.default.Len = 1 := by
  decide

/-- C10: the RMode getter is total over all states, including states with
arbitrary raw content: the value it extracts from bits 22-23 is always in
0..3, so it always returns one of the four rounding-mode variants. -/
theorem C10_rmode_getter_total (r : FPCR) :
    Common.Bits 22 23 r.value < 4 ∧
    r.RMode = RoundingMode.ofEncoding (Common.Bits 22 23 r.value) ∧
    (r.RMode = RoundingMode.ToNearest_TieEven ∨
      r.RMode = RoundingMode.TowardsPlusInfinity ∨
      r.RMode = RoundingMode.TowardsMinusInfinity ∨
      r.RMode = RoundingMode.TowardsZero) := by
  refine ⟨?_, rfl, ?_⟩
  · have hle : Common.Bits 22 23 r.value ≤ 3 :=
      le_trans Nat.and_le_right (by norm_num)
    omega
  · cases hr : r.RMode
    · exact Or.inl rfl
    · exact Or.inr (Or.inl rfl)
    · exact Or.inr (Or.inr (Or.inl rfl))
    · exact Or.inr (Or.inr (Or.inr rfl))

/-- Witness for C10 at a concrete state. -/
theorem C10_rmode_getter_total_witness :
    Common.Bits 22 23 (FPCR.ofRaw 0xFFFFFFFF).value < 4 :=
  (C10_rmode_getter_total (FPCR.ofRaw 0xFFFFFFFF)).1

/-- C3: for every field (AHP, DN, FZ, RMode, Stride, FZ16, Len, IDE, IXE,
UFE, OFE, DZE, IOE), every reachable state, and every value `v` in that
field's legal domain (booleans for the flag fields, encodings 0..3 for
RMode, {1, 2} for Stride, 1..8 for Len), calling the field's setter with `v`
and then its getter returns exactly `v`. -/
theorem C3_field_roundtrip (r : FPCR) (_h : r.Reachable) :
    (∀ b, (r.setAHP b).AHP = b) ∧
    (∀ b, (r.setDN b).DN = b) ∧
    (∀ b, (r.setFZ b).FZ = b) ∧
    (∀ b, (r.setFZ16 b).FZ16 = b) ∧
    (∀ b, (r.setIDE b).IDE = b) ∧
    (∀ b, (r.setIXE b).IXE = b) ∧
    (∀ b, (r.setUFE b).UFE = b) ∧
    (∀ b, (r.setOFE b).OFE = b) ∧
    (∀ b, (r.setDZE b).DZE = b) ∧
    (∀ b, (r.setIOE b).IOE = b) ∧
    (∀ v r', v ≤ 3 → r.setRMode v = some r' → (r'.RMode).toEncoding = v) ∧
    (∀ s r', (s = 1 ∨ s = 2) → r.setStride s = some r' → r'.Stride = some s) ∧
    (∀ n r', 1 ≤ n → n ≤ 8 → r.setLen n = some r' → r'.Len = n) := by
  refine ⟨?_, ?_, ?_, ?_, ?_, ?_, ?_, ?_, ?_, ?_, ?_, ?_, ?_⟩
  · exact fun b => Bit_ModifyBit_self 26 r.value b (by omega)
  · exact fun b => Bit_ModifyBit_self 25 r.value b (by omega)
  · exact fun b => Bit_ModifyBit_self 24 r.value b (by omega)
  · exact fun b => Bit_ModifyBit_self 19 r.value b (by omega)
  · exact fun b => Bit_ModifyBit_self 15 r.value b (by omega)
  · exact fun b => Bit_ModifyBit_self 12 r.value b (by omega)
  · exact fun b => Bit_ModifyBit_self 11 r.value b (by omega)
  · exact fun b => Bit_ModifyBit_self 10 r.value b (by omega)
  · exact fun b => Bit_ModifyBit_self 9 r.value b (by omega)
  · exact fun b => Bit_ModifyBit_self 8 r.value b (by omega)
  · intro v r' hv hs
    unfold FPCR.setRMode at hs
    rw [if_pos hv] at hs
    cases hs
    show (RoundingMode.ofEncoding
      (Common.Bits 22 23 (Common.ModifyBits 22 23 r.value v))).toEncoding = v
    rw [Bits_ModifyBits_self 22 23 r.value v (by omega) (by omega)
      (show v < 2 ^ (23 - 22 + 1) by norm_num; omega)]
    exact toEncoding_ofEncoding v hv
  · intro s r' hs12 hs
    unfold FPCR.setStride at hs
    rw [if_pos (by omega)] at hs
    cases hs
    rcases hs12 with rfl | rfl
    · show FPCR.Stride ⟨Common.ModifyBits 20 21 r.value (if 1 = 1 then 0 else 3)⟩ = some 1
      unfold FPCR.Stride
      rw [show (if 1 = 1 then (0 : Nat) else 3) = 0 from rfl,
        Bits_ModifyBits_self 20 21 r.value 0 (by omega) (by omega) (by norm_num)]
    · show FPCR.Stride ⟨Common.ModifyBits 20 21 r.value (if 2 = 1 then 0 else 3)⟩ = some 2
      unfold FPCR.Stride
      rw [show (if 2 = 1 then (0 : Nat) else 3) = 3 from rfl,
        Bits_ModifyBits_self 20 21 r.value 3 (by omega) (by omega) (by norm_num)]
  · intro n r' h1 h8 hs
    unfold FPCR.setLen at hs
    rw [if_pos ⟨h1, h8⟩] at hs
    cases hs
    show Common.Bits 16 18 (Common.ModifyBits 16 18 r.value (n - 1)) + 1 = n
    rw [Bits_ModifyBits_self 16 18 r.value (n - 1) (by omega) (by omega)
      (show n - 1 < 2 ^ (18 - 16 + 1) by norm_num; omega)]
    omega

/-- Witness for C3 at concrete reachable states and inputs. -/
theorem C3_field_roundtrip_witness :
    (FPCR.default.setAHP true).AHP = true ∧
    (FPCR.ofRaw 0xFFFFFFFF).setLen 5 = some ⟨0x07FC9F00⟩ ∧
    ((⟨0x07FC9F00⟩ : FPCR).Len = 5) :=
  ⟨(C3_field_roundtrip FPCR.default FPCR.Reachable.default).1 true,
    by decide,
    (C3_field_roundtrip (FPCR.ofRaw 0xFFFFFFFF)
      (FPCR.Reachable.ofRaw 0xFFFFFFFF)).2.2.2.2.2.2.2.2.2.2.2.2
      5 ⟨0x07FC9F00⟩ (by decide) (by decide) (by decide)⟩

/-- C4: every field setter, called with an in-domain argument, modifies only
the bits of its own field: for every reachable state, every bit outside the
written field's bit range reads the same after the set as before (hence
every other field is unchanged).  In particular, setting DZE to true on a
default-constructed register leaves RMode, AHP and IOE at their prior
values. -/
theorem C4_setter_frame (r : FPCR) (h : r.Reachable) :
    (∀ b, FramedAt 26 26 r.value (r.setAHP b).value) ∧
    (∀ b, FramedAt 25 25 r.value (r.setDN b).value) ∧
    (∀ b, FramedAt 24 24 r.value (r.setFZ b).value) ∧
    (∀ b, FramedAt 19 19 r.value (r.setFZ16 b).value) ∧
    (∀ b, FramedAt 15 15 r.value (r.setIDE b).value) ∧
    (∀ b, FramedAt 12 12 r.value (r.setIXE b).value) ∧
    (∀ b, FramedAt 11 11 r.value (r.setUFE b).value) ∧
    (∀ b, FramedAt 10 10 r.value (r.setOFE b).value) ∧
    (∀ b, FramedAt 9 9 r.value (r.setDZE b).value) ∧
    (∀ b, FramedAt 8 8 r.value (r.setIOE b).value) ∧
    (∀ n r', r.setRMode n = some r' → FramedAt 22 23 r.value r'.value) ∧
    (∀ s r', r.setStride s = some r' → FramedAt 20 21 r.value r'.value) ∧
    (∀ n r', r.setLen n = some r' → FramedAt 16 18 r.value r'.value) ∧
    ((FPCR.default.setDZE true).RMode = FPCR.default.RMode ∧
      (FPCR.default.setDZE true).AHP = FPCR.default.AHP ∧
      (FPCR.default.setDZE true).IOE = FPCR.default.IOE ∧
      (FPCR.default.setDZE true).DZE = true) := by
  have hv := h.lt_two_pow_32
  refine ⟨?_, ?_, ?_, ?_, ?_, ?_, ?_, ?_, ?_, ?_, ?_, ?_, ?_, by decide⟩
  · exact fun b => ModifyBits_FramedAt 26 26 r.value _ (le_refl _) (by omega) hv
  · exact fun b => ModifyBits_FramedAt 25 25 r.value _ (le_refl _) (by omega) hv
  · exact fun b => ModifyBits_FramedAt 24 24 r.value _ (le_refl _) (by omega) hv
  · exact fun b => ModifyBits_FramedAt 19 19 r.value _ (le_refl _) (by omega) hv
  · exact fun b => ModifyBits_FramedAt 15 15 r.value _ (le_refl _) (by omega) hv
  · exact fun b => ModifyBits_FramedAt 12 12 r.value _ (le_refl _) (by omega) hv
  · exact fun b => ModifyBits_FramedAt 11 11 r.value _ (le_refl _) (by omega) hv
  · exact fun b => ModifyBits_FramedAt 10 10 r.value _ (le_refl _) (by omega) hv
  · exact fun b => ModifyBits_FramedAt 9 9 r.value _ (le_refl _) (by omega) hv
  · exact fun b => ModifyBits_FramedAt 8 8 r.value _ (le_refl _) (by omega) hv
  · intro n r' hs
    unfold FPCR.setRMode at hs
    split at hs
    · cases hs
      exact ModifyBits_FramedAt 22 23 r.value n (by omega) (by omega) hv
    · exact absurd hs (by simp)
  · intro s r' hs
    unfold FPCR.setStride at hs
    split at hs
    · cases hs
      exact ModifyBits_FramedAt 20 21 r.value _ (by omega) (by omega) hv
    · exact absurd hs (by simp)
  · intro n r' hs
    unfold FPCR.setLen at hs
    split at hs
    · cases hs
      exact ModifyBits_FramedAt 16 18 r.value _ (by omega) (by omega) hv
    · exact absurd hs (by simp)

/-- Witness for C4: setting AHP on a concrete reachable state leaves bit 9
(the DZE bit) unchanged. -/
theorem C4_setter_frame_witness :
    Nat.testBit ((FPCR.ofRaw 0x200).setAHP true).value 9 =
      Nat.testBit (FPCR.ofRaw 0x200).value 9 :=
  (C4_setter_frame (FPCR.ofRaw 0x200) (FPCR.Reachable.ofRaw 0x200)).1
    true 9 (Or.inl (by omega))

/-- C5: for every reachable state, the Stride getter returns 1 when bits
20-21 of the raw value are `0b00`, 2 when they are `0b11`, and an absent
(optional-none) result when they are `0b01` or `0b10`; the Stride setter
called with 1 sets bits 20-21 to `0b00` and called with 2 sets them to
`0b11`.  Constructing from a raw value whose Stride bits are `0b01`
preserves those two bits until a Stride setter is invoked. -/
theorem C5_stride_encoding (r : FPCR) (_h : r.Reachable) (x : Nat) :
    (Common.Bits 20 21 r.value = 0 → r.Stride = some 1) ∧
    (Common.Bits 20 21 r.value = 3 → r.Stride = some 2) ∧
    (Common.Bits 20 21 r.value = 1 → r.Stride = none) ∧
    (Common.Bits 20 21 r.value = 2 → r.Stride = none) ∧
    (∀ r', r.setStride 1 = some r' → Common.Bits 20 21 r'.value = 0) ∧
    (∀ r', r.setStride 2 = some r' → Common.Bits 20 21 r'.value = 3) ∧
    (Common.Bits 20 21 x = 1 →
      (FPCR.ofRaw x).Stride = none ∧ Common.Bits 20 21 (FPCR.ofRaw x).value = 1) := by
  have hpres : Common.Bits 20 21 (x &&& FPCR.mask) = Common.Bits 20 21 x :=
    Bits_land_mask 20 21 x FPCR.mask (by omega) (by omega) (by decide)
  refine ⟨?_, ?_, ?_, ?_, ?_, ?_, ?_⟩
  · intro he; unfold FPCR.Stride; rw [he]
  · intro he; unfold FPCR.Stride; rw [he]
  · intro he; unfold FPCR.Stride; rw [he]
  · intro he; unfold FPCR.Stride; rw [he]
  · intro r' hs
    unfold FPCR.setStride at hs
    rw [if_pos (by omega)] at hs
    cases hs
    show Common.Bits 20 21 (Common.ModifyBits 20 21 r.value (if 1 = 1 then 0 else 3)) = 0
    rw [show (if 1 = 1 then (0 : Nat) else 3) = 0 from rfl]
    exact Bits_ModifyBits_self 20 21 r.value 0 (by omega) (by omega) (by norm_num)
  · intro r' hs
    unfold FPCR.setStride at hs
    rw [if_pos (by omega)] at hs
    cases hs
    show Common.Bits 20 21 (Common.ModifyBits 20 21 r.value (if 2 = 1 then 0 else 3)) = 3
    rw [show (if 2 = 1 then (0 : Nat) else 3) = 3 from rfl]
    exact Bits_ModifyBits_self 20 21 r.value 3 (by omega) (by omega) (by norm_num)
  · intro hx
    constructor
    · show FPCR.Stride ⟨x &&& FPCR.mask⟩ = none
      unfold FPCR.Stride
      rw [show (⟨x &&& FPCR.mask⟩ : FPCR).value = x &&& FPCR.mask from rfl, hpres, hx]
    · show Common.Bits 20 21 (x &&& FPCR.mask) = 1
      rw [hpres, hx]

/-- Witness for C5 at concrete states. -/
theorem C5_stride_encoding_witness :
    (FPCR.ofRaw 0x100000).Stride = none ∧
    Common.Bits 20 21 (FPCR.ofRaw 0x100000).value = 1 :=
  (C5_stride_encoding FPCR.default FPCR.Reachable.default 0x100000).2.2.2.2.2.2
    (by decide)

/-- C6: for every `n` in 1..8 and every reachable state, calling the Len
setter with `n` and then the Len getter returns `n`, and the stored 3-bit
sub-field (bits 16-18) equals `n - 1`; for every state the Len getter
returns `bits(16, 18) + 1`, which is always in 1..8. -/
theorem C6_len_encoding (r : FPCR) (_h : r.Reachable) :
    (∀ n r', 1 ≤ n → n ≤ 8 → r.setLen n = some r' →
      r'.Len = n ∧ Common.Bits 16 18 r'.value = n - 1) ∧
    (r.Len = Common.Bits 16 18 r.value + 1 ∧ 1 ≤ r.Len ∧ r.Len ≤ 8) := by
  constructor
  · intro n r' h1 h8 hs
    unfold FPCR.setLen at hs
    rw [if_pos ⟨h1, h8⟩] at hs
    cases hs
    have hb : Common.Bits 16 18 (Common.ModifyBits 16 18 r.value (n - 1)) = n - 1 :=
      Bits_ModifyBits_self 16 18 r.value (n - 1) (by omega) (by omega)
        (show n - 1 < 2 ^ (18 - 16 + 1) by norm_num; omega)
    exact ⟨by show Common.Bits 16 18 _ + 1 = n; rw [hb]; omega, hb⟩
  · have hle : Common.Bits 16 18 r.value ≤ 7 :=
      le_trans Nat.and_le_right (by norm_num)
    exact ⟨rfl, by show 1 ≤ Common.Bits 16 18 r.value + 1; omega,
      by show Common.Bits 16 18 r.value + 1 ≤ 8; omega⟩

/-- Witness for C6 at a concrete state and input. -/
theorem C6_len_encoding_witness :
    FPCR.default.setLen 3 = some ⟨0x20000⟩ ∧
    ((⟨0x20000⟩ : FPCR).Len = 3 ∧ Common.Bits 16 18 (0x20000 : Nat) = 2) :=
  ⟨by decide,
    (C6_len_encoding FPCR.default FPCR.Reachable.default).1 3 ⟨0x20000⟩
      (by decide) (by decide) (by decide)⟩

/-- Two values masked by `m` are equal exactly when they agree on every bit
of `m`. -/
theorem land_eq_land_iff (x y m : Nat) :
    x &&& m = y &&& m ↔ ∀ i, m.testBit i = true → x.testBit i = y.testBit i := by
  constructor
  · intro he i hmi
    have hx : x.testBit i = (x &&& m).testBit i := by
      rw [Nat.testBit_and, hmi, Bool.and_true]
    have hy : y.testBit i = (y &&& m).testBit i := by
      rw [Nat.testBit_and, hmi, Bool.and_true]
    rw [hx, hy, he]
  · intro hb
    apply Nat.eq_of_testBit_eq
    intro i
    rw [Nat.testBit_and, Nat.testBit_and]
    cases hmi : m.testBit i with
    | false => rw [Bool.and_false, Bool.and_false]
    | true => rw [hb i hmi]

/-- C7: two FPCRs are equal if and only if their masked raw values are
equal: registers constructed from `x` and `y` compare equal exactly when `x`
and `y` agree on every non-reserved bit, i.e. differ only in reserved bits
(bits 0-7, 13-14, 27-31). -/
theorem C7_equality_law (x y : Nat) :
    (FPCR.equal (FPCR.ofRaw x) (FPCR.ofRaw y) = true ↔
      x &&& FPCR.mask = y &&& FPCR.mask) ∧
    (FPCR.equal (FPCR.ofRaw x) (FPCR.ofRaw y) = true ↔
      ∀ i, FPCR.mask.testBit i = true → x.testBit i = y.testBit i) ∧
    (FPCR.notEqual (FPCR.ofRaw x) (FPCR.ofRaw y) = true ↔
      ¬FPCR.equal (FPCR.ofRaw x) (FPCR.ofRaw y) = true) := by
  have h1 : FPCR.equal (FPCR.ofRaw x) (FPCR.ofRaw y) = true ↔
      x &&& FPCR.mask = y &&& FPCR.mask := by
    show ((x &&& FPCR.mask) == (y &&& FPCR.mask)) = true ↔ _
    exact beq_iff_eq
  refine ⟨h1, h1.trans (land_eq_land_iff x y FPCR.mask), ?_⟩
  show (!FPCR.equal (FPCR.ofRaw x) (FPCR.ofRaw y)) = true ↔ _
  rw [Bool.not_eq_true']
  exact ⟨fun hf => by rw [hf]; exact Bool.false_ne_true,
    fun hne => Bool.eq_false_iff.mpr (fun ht => hne ht)⟩

/-- Witness for C7: two raw values differing only in reserved bit 0 compare
equal; two differing in non-reserved bit 9 compare unequal. -/
theorem C7_equality_law_witness :
    FPCR.equal (FPCR.ofRaw 0x201) (FPCR.ofRaw 0x200) = true ∧
    FPCR.equal (FPCR.ofRaw 0x200) (FPCR.ofRaw 0x000) ≠ true :=
  ⟨(C7_equality_law 0x201 0x200).1.mpr (by decide),
    fun ht => by
      have := (C7_equality_law 0x200 0x000).1.mp ht
      exact absurd this (by decide)⟩

/-- C8: each setter with a domain-restricted argument fails fast on a
contract violation and never silently clamps or wraps: calling RMode with an
encoding outside 0..3, Stride with a value not in {1, 2}, or Len with a
value outside 1..8 hits the assertion (the `none` branch); conversely, with
an in-domain argument the assertion branch is unreachable and the setter
succeeds. -/
theorem C8_fail_fast (r : FPCR) :
    (∀ v, 3 < v → r.setRMode v = none) ∧
    (∀ v, v ≤ 3 → (r.setRMode v).isSome = true) ∧
    (∀ s, ¬(1 ≤ s ∧ s ≤ 2) → r.setStride s = none) ∧
    (∀ s, 1 ≤ s → s ≤ 2 → (r.setStride s).isSome = true) ∧
    (∀ n, ¬(1 ≤ n ∧ n ≤ 8) → r.setLen n = none) ∧
    (∀ n, 1 ≤ n → n ≤ 8 → (r.setLen n).isSome = true) := by
  refine ⟨?_, ?_, ?_, ?_, ?_, ?_⟩
  · intro v hv
    unfold FPCR.setRMode
    rw [if_neg (by omega)]
  · intro v hv
    unfold FPCR.setRMode
    rw [if_pos hv]
    rfl
  · intro s hs
    unfold FPCR.setStride
    rw [if_neg hs]
  · intro s h1 h2
    unfold FPCR.setStride
    rw [if_pos ⟨h1, h2⟩]
    rfl
  · intro n hn
    unfold FPCR.setLen
    rw [if_neg hn]
  · intro n h1 h8
    unfold FPCR.setLen
    rw [if_pos ⟨h1, h8⟩]
    rfl

/-- Witness for C8 at concrete out-of-domain and in-domain arguments. -/
theorem C8_fail_fast_witness :
    FPCR.default.setRMode 4 = none ∧
    (FPCR.default.setRMode 3).isSome = true ∧
    FPCR.default.setStride 3 = none ∧
    (FPCR.default.setStride 2).isSome = true ∧
    FPCR.default.setLen 9 = none ∧
    (FPCR.default.setLen 1).isSome = true :=
  ⟨(C8_fail_fast FPCR.default).1 4 (by decide),
    (C8_fail_fast FPCR.default).2.1 3 (by decide),
    (C8_fail_fast FPCR.default).2.2.1 3 (by decide),
    (C8_fail_fast FPCR.default).2.2.2.1 2 (by decide) (by decide),
    (C8_fail_fast FPCR.default).2.2.2.2.1 9 (by decide),
    (C8_fail_fast FPCR.default).2.2.2.2.2 1 (by decide) (by decide)⟩
